import Mathlib

/-!
Verification of the term / position / substitution / pool / ordering core of
the `termination` library (src/termination/terms.py, pools.py, orderings.py).

The Python classes are shallowly embedded:

* `Variable` / `IndexedVariable` keys become `VKey`.
* `Constant`, `Variable` and `Term` (application of a `Function` to children)
  become the inductive `Tm`; a `Function` is a name together with its arity.
* Python exceptions become `Except PyError`; `PyError.keyError` carries the
  position reported in the message of the raised `KeyError`, and
  `PyError.indexError` models `IndexError` (which `TermLike.__contains__`
  catches).
* Python `dict`s become association lists; `alistLookup` is `dict.__getitem__`
  and `pyMerge d1 d2` is the merged dict literal built from `d1` then `d2`
  (later keys override earlier ones).  Insertion order of a dict is observable
  only through `str`, which is not modelled, so `pyMerge` is faithful up to
  key order.
-/

/-- Identity of a Python `Variable` (name) or `IndexedVariable` (name, index).
Both are dict keys of a `Substitution` mapping. -/
inductive VKey where
  | plain (name : String)
  | indexed (name : String) (index : Int)
deriving DecidableEq

/-- Term-like values: `Constant(name)`, `Variable`/`IndexedVariable` (a `VKey`),
and `Term(root=Function(name, arity), children)`.  The arity is stored with the
root name because name and arity together form a `Function`'s identity. -/
inductive Tm where
  | const (name : String)
  | var (v : VKey)
  | app (rootName : String) (rootArity : Nat) (children : List Tm)

mutual

/-- Structural equality test on terms (Python value semantics of the frozen
dataclasses). -/
def tmBeq : Tm → Tm → Bool
  | Tm.const n, Tm.const m => decide (n = m)
  | Tm.var v, Tm.var w => decide (v = w)
  | Tm.app nm ar cs, Tm.app nm2 ar2 cs2 =>
      decide (nm = nm2) && decide (ar = ar2) && tmListBeq cs cs2
  | _, _ => false

/-- Structural equality test on child lists. -/
def tmListBeq : List Tm → List Tm → Bool
  | [], [] => true
  | a :: as1, b :: bs => tmBeq a b && tmListBeq as1 bs
  | _, _ => false

end

mutual

theorem tmBeq_iff : ∀ (a b : Tm), tmBeq a b = true ↔ a = b
  | Tm.const _, Tm.const _ => by simp [tmBeq]
  | Tm.const _, Tm.var _ => by simp [tmBeq]
  | Tm.const _, Tm.app _ _ _ => by simp [tmBeq]
  | Tm.var _, Tm.const _ => by simp [tmBeq]
  | Tm.var _, Tm.var _ => by simp [tmBeq]
  | Tm.var _, Tm.app _ _ _ => by simp [tmBeq]
  | Tm.app _ _ _, Tm.const _ => by simp [tmBeq]
  | Tm.app _ _ _, Tm.var _ => by simp [tmBeq]
  | Tm.app nm ar cs, Tm.app nm2 ar2 cs2 => by
      simp [tmBeq, tmListBeq_iff cs cs2, and_assoc]

theorem tmListBeq_iff : ∀ (a b : List Tm), tmListBeq a b = true ↔ a = b
  | [], [] => by simp [tmListBeq]
  | [], _ :: _ => by simp [tmListBeq]
  | _ :: _, [] => by simp [tmListBeq]
  | a :: as1, b :: bs => by
      simp [tmListBeq, tmBeq_iff a b, tmListBeq_iff as1 bs]

end

instance : DecidableEq Tm :=
  fun a b => decidable_of_iff (tmBeq a b = true) (tmBeq_iff a b)

/-- The Python exceptions the embedded code can raise.  `keyError` carries the
position interpolated into the message of the raised `KeyError`. -/
inductive PyError where
  | keyError (pos : List Int)
  | indexError
  | valueErrorArity (expected found : Nat)
deriving DecidableEq

/-- Association-list lookup, modelling Python dict lookup (dict keys are
unique, so first match is the match). -/
def alistLookup {κ α : Type} [DecidableEq κ] (k : κ) : List (κ × α) → Option α
  | [] => none
  | (k1, v1) :: rest => if k = k1 then some v1 else alistLookup k rest

/-- Association-list assignment `d[k] = v`: replace the first binding of `k`,
or append a new binding. -/
def alistSet {κ α : Type} [DecidableEq κ] (k : κ) (v : α) : List (κ × α) → List (κ × α)
  | [] => [(k, v)]
  | (k1, v1) :: rest => if k = k1 then (k, v) :: rest else (k1, v1) :: alistSet k v rest

/-- Positional element lookup in a list (no negative-index wrapping). -/
def listNth {α : Type} : List α → Nat → Option α
  | [], _ => none
  | c :: _, 0 => some c
  | _ :: cs, n + 1 => listNth cs n

/-- Python tuple indexing `cs[i]` for `int` `i`: indices in `[-len, len)` are
valid, and a negative index counts from the end. -/
def pyTupleGet (cs : List Tm) (i : Int) : Option Tm :=
  let n : Int := cs.length
  let j : Int := if i < 0 then i + n else i
  if 0 ≤ j ∧ j < n then listNth cs j.toNat else none

/-- `TerminalSymbol.__getitem__`: an empty position returns the symbol itself,
any non-empty position raises `KeyError` whose message holds exactly the
position tuple that was passed in (which, when reached through
`Term.__getitem__`, is only the remaining suffix). -/
def terminalGetItem (t : Tm) (pos : List Int) : Except PyError Tm :=
  match pos with
  | [] => Except.ok t
  | _ => Except.error (PyError.keyError pos)

/-- The loop of `Term.__getitem__`: walk the indices while the current subterm
is a `Term`; an out-of-range child index raises `KeyError` carrying `orig`
(the `IndexError` is caught and converted); reaching a non-`Term` child
delegates to `TerminalSymbol.__getitem__` on the remaining suffix, and the
`KeyError` it raises is NOT caught by the `except IndexError` handler. -/
def termGetItemLoop (orig : List Int) (nm : String) (ar : Nat) (cs : List Tm) :
    List Int → Except PyError Tm
  | [] => Except.ok (Tm.app nm ar cs)
  | i :: rest =>
    match pyTupleGet cs i with
    | none => Except.error (PyError.keyError orig)
    | some (Tm.app nm2 ar2 cs2) => termGetItemLoop orig nm2 ar2 cs2 rest
    | some (Tm.const n) => terminalGetItem (Tm.const n) rest
    | some (Tm.var v) => terminalGetItem (Tm.var v) rest

/-- `t[position]` (the `at` operation): dispatch to `Term.__getitem__` for an
application and `TerminalSymbol.__getitem__` for a terminal symbol. -/
def getItem (t : Tm) (pos : List Int) : Except PyError Tm :=
  match t with
  | Tm.app nm ar cs => termGetItemLoop pos nm ar cs pos
  | Tm.const n => terminalGetItem (Tm.const n) pos
  | Tm.var v => terminalGetItem (Tm.var v) pos

/-- One step of the lookup with the original position `orig` kept for error
reporting; used to state lemmas about `termGetItemLoop` uniformly. -/
def guardedGet (orig : List Int) (t : Tm) (pos : List Int) : Except PyError Tm :=
  match t with
  | Tm.app nm ar cs => termGetItemLoop orig nm ar cs pos
  | Tm.const n => terminalGetItem (Tm.const n) pos
  | Tm.var v => terminalGetItem (Tm.var v) pos

/-- `TermLike.__contains__`: `try: self[position]; except IndexError: return
False; return True`.  Only `IndexError` is suppressed; any other exception
(such as the `KeyError` that `__getitem__` actually raises) propagates. -/
def containsImpl (t : Tm) (pos : List Int) : Except PyError Bool :=
  match getItem t pos with
  | Except.ok _ => Except.ok true
  | Except.error PyError.indexError => Except.ok false
  | Except.error e => Except.error e

mutual

/-- `subterms()`: an application yields `((), self)` followed by, for each
child in order, the child's subterm pairs with the child's index prepended;
a terminal symbol yields only `((), self)`. -/
def subtermsTm : Tm → List (List Nat × Tm)
  | Tm.app nm ar cs => ([], Tm.app nm ar cs) :: subtermsChildren 0 cs
  | Tm.const n => [([], Tm.const n)]
  | Tm.var v => [([], Tm.var v)]

/-- The `enumerate` loop of `Term.subterms`, starting at child index `i`. -/
def subtermsChildren : Nat → List Tm → List (List Nat × Tm)
  | _, [] => []
  | i, c :: cs =>
      (subtermsTm c).map (fun pt => (i :: pt.1, pt.2)) ++ subtermsChildren (i + 1) cs

end

/-- `positions()`: the position component of `subterms()`. -/
def positionsTm (t : Tm) : List (List Nat) :=
  (subtermsTm t).map Prod.fst

mutual

/-- `__len__`: 1 for a terminal symbol, `1 + sum(len(child) ...)` for an
application. -/
def tmLen : Tm → Nat
  | Tm.app _ _ cs => 1 + tmLenChildren cs
  | Tm.const _ => 1
  | Tm.var _ => 1

/-- The sum of the lengths of a list of children. -/
def tmLenChildren : List Tm → Nat
  | [] => 0
  | c :: cs => tmLen c + tmLenChildren cs

end

mutual

/-- `_substitute` dispatch on term-like values: a `Constant` is unchanged, a
`Variable` looks itself up in the mapping (returning itself if absent), a
`Term` rebuilds with the same root and each child substituted. -/
def substTm (m : List (VKey × Tm)) : Tm → Tm
  | Tm.const n => Tm.const n
  | Tm.var v =>
    match alistLookup v m with
    | some t => t
    | none => Tm.var v
  | Tm.app nm ar cs => Tm.app nm ar (substChildren m cs)

/-- The children comprehension of `Term._substitute`. -/
def substChildren (m : List (VKey × Tm)) : List Tm → List Tm
  | [] => []
  | c :: cs => substTm m c :: substChildren m cs

end

/-- The merged dict literal built from all of `d1` then all of `d2`, with the
bindings of `d2` overriding those of `d1`; faithful up to key insertion order,
which is observable only through `str`. -/
def pyMerge (d1 d2 : List (VKey × Tm)) : List (VKey × Tm) :=
  d1.filter (fun kv => (alistLookup kv.1 d2).isNone) ++ d2

/-- A `Substitution` owns a variable-to-term mapping. -/
structure Substitution where
  mapping : List (VKey × Tm)
deriving DecidableEq

/-- `Substitution._substitute`: applying the substitution with mapping `m` to
this substitution composes them, producing the merged dict of `m` and this
substitution's mapping with `m` applied to each of its terms. -/
def Substitution.substituteS (inner : Substitution) (m : List (VKey × Tm)) : Substitution :=
  Substitution.mk
    (pyMerge m (inner.mapping.map (fun p => (p.1, substTm m p.2))))

/-- `Substitution.__call__` on another substitution: `outer(inner)` dispatches
to `inner._substitute(outer.mapping)`. -/
def Substitution.callS (outer inner : Substitution) : Substitution :=
  inner.substituteS outer.mapping

/-- `Substitution.__call__` on a term-like value. -/
def Substitution.callTm (s : Substitution) (t : Tm) : Tm :=
  substTm s.mapping t

/-- The keys of a dict. -/
def dictKeys (d : List (VKey × Tm)) : List VKey :=
  d.map Prod.fst

/-- Python dict equality (hence `Substitution` dataclass equality): the same
key set with the same value for every key. -/
def pyDictEq (d1 d2 : List (VKey × Tm)) : Prop :=
  (∀ k ∈ dictKeys d1, k ∈ dictKeys d2 ∧ alistLookup k d1 = alistLookup k d2) ∧
  (∀ k ∈ dictKeys d2, k ∈ dictKeys d1)

instance (d1 d2 : List (VKey × Tm)) : Decidable (pyDictEq d1 d2) := by
  unfold pyDictEq
  infer_instance

/-- A `Function` symbol: a name and an arity (positive in any instance Python
can construct, since `Function.__post_init__` rejects `arity <= 0`). -/
structure Funct where
  name : String
  arity : Nat
deriving DecidableEq

/-- `Term.__post_init__` guarded construction: building `Term(f, cs)` raises
`ValueError` (arity mismatch, reporting expected and found counts) unless the
root arity equals the number of children. -/
def mkTerm (f : Funct) (cs : List Tm) : Except PyError Tm :=
  if f.arity = cs.length then Except.ok (Tm.app f.name f.arity cs)
  else Except.error (PyError.valueErrorArity f.arity cs.length)

/-- `Function.__call__`: `f(*args)` constructs `Term(f, args)`, so validation
goes through the single `Term.__post_init__` path. -/
def functCall (f : Funct) (cs : List Tm) : Except PyError Tm :=
  mkTerm f cs

/-- A `VariablePool`'s state: Python keeps a `dict[str, VariableState]` where
each `VariableState` holds the canonical unindexed variable for the name
(fully determined by the name, so not modelled separately) and the `next_index`
counter (default 1).  The model keeps the counter per name. -/
abbrev Pool := List (String × Int)

/-- `VariableState.update_index`: `if index >= next_index: next_index =
index + 1`. -/
def updateIndex (next index : Int) : Int :=
  if next ≤ index then index + 1 else next

/-- `VariablePool._get_state`: return the state for `name`, creating it (with
`next_index = 1`) if absent; yields the counter together with the possibly
extended pool. -/
def getState (p : Pool) (name : String) : Int × Pool :=
  match alistLookup name p with
  | some n => (n, p)
  | none => (1, alistSet name 1 p)

/-- The `next_index` counter the pool currently holds for `name` (1 when the
state has not been created yet, matching the default). -/
def poolNextIndex (p : Pool) (name : String) : Int :=
  (alistLookup name p).getD 1

/-- `VariablePool.get`: with no index, return the canonical plain variable for
`name` (creating the state as a side effect); with an index, advance the
counter via `update_index` and return a fresh `IndexedVariable`. -/
def poolGet (p : Pool) (name : String) : Option Int → VKey × Pool
  | none =>
      let s := getState p name
      (VKey.plain name, s.2)
  | some index =>
      let s := getState p name
      (VKey.indexed name index, alistSet name (updateIndex s.1 index) s.2)

/-- `VariablePool.get_fresh`: read the counter for `name`, then reserve it via
`get(name, index)`. -/
def poolGetFresh (p : Pool) (name : String) : VKey × Pool :=
  let s := getState p name
  poolGet s.2 name (some s.1)

/-- One operation of a client interacting with a single pool and name: either
`get_fresh(name)` or an explicit reservation `get(name, index)`. -/
inductive PoolOp where
  | freshOp
  | reserveOp (index : Int)

/-- Run a sequence of operations against a pool for a fixed `name`, recording
`(true, index)` for each index issued by `get_fresh` and `(false, index)` for
each explicitly reserved index. -/
def poolRunTrace (p : Pool) (name : String) : List PoolOp → List (Bool × Int)
  | [] => []
  | PoolOp.freshOp :: ops =>
      (true, (getState p name).1) :: poolRunTrace (poolGetFresh p name).2 name ops
  | PoolOp.reserveOp i :: ops =>
      (false, i) :: poolRunTrace (poolGet p name (some i)).2 name ops

/-- A value wrapped by the class the `ordering` decorator builds: the payload
and the keyword-argument configuration captured at the call. -/
structure OrderedValue (T K : Type) where
  value : T
  kwargs : K

/-- `AbstractOrderedValue._unwrap_right`: a wrapped right operand contributes
its raw value; anything else is used as is. -/
def unwrapRight {T K2 : Type} : Sum T (OrderedValue T K2) → T
  | Sum.inl v => v
  | Sum.inr w => w.value

/-- `AbstractOrderedValue._evaluate_left`: apply the wrapper's comparator
constructor to its own value with its own keyword configuration. -/
def evalLeft {T K C : Type} (cmp : T → K → C) (l : OrderedValue T K) : C :=
  cmp l.value l.kwargs

/-- `AbstractOrderedValue._evaluate_right`: extract the raw value of the right
operand (discarding its configuration when it is itself wrapped) and apply the
LEFT wrapper's comparator with the LEFT wrapper's configuration. -/
def evalRight {T K K2 C : Type} (cmp : T → K → C) (l : OrderedValue T K)
    (r : Sum T (OrderedValue T K2)) : C :=
  cmp (unwrapRight r) l.kwargs

/-- `AbstractOrderedValue.__lt__` (and, with the matching comparison passed
for `ltc`, also `__le__`, `__gt__` and `__ge__`): compare the two constructed
comparables. -/
def ovCompare {T K K2 C : Type} (cmp : T → K → C) (ltc : C → C → Bool)
    (l : OrderedValue T K) (r : Sum T (OrderedValue T K2)) : Bool :=
  ltc (evalLeft cmp l) (evalRight cmp l r)

/-- `AbstractOrderedValue.__eq__` as written in the abstract class: compare the
raw underlying values.  This method is DEAD CODE: the `ordering` decorator
wraps its `OrderedValue` subclass in `@dataclass`, which (with the default
`eq=True`) generates an `__eq__` in the subclass that shadows this one. -/
def ovEqAbstract {T K K2 : Type} (beqT : T → T → Bool) (l : OrderedValue T K)
    (r : Sum T (OrderedValue T K2)) : Bool :=
  beqT l.value (unwrapRight r)

/-- The `__eq__` the `@dataclass` decorator actually generates for the
`OrderedValue` subclass: field-tuple comparison `(value, kwargs) ==
(other.value, other.kwargs)`, and only for an operand of the very same class
(a different class yields `NotImplemented` and ultimately `False`). -/
def ovEqDataclass {T K : Type} (beqT : T → T → Bool) (beqK : K → K → Bool)
    (l r : OrderedValue T K) : Bool :=
  beqT l.value r.value && beqK l.kwargs r.kwargs

/-- `AbstractOrderedValue.__ne__`: `@dataclass` does not generate `__ne__`, so
this inherited method survives and compares the raw underlying values. -/
def ovNe {T K K2 : Type} (bneT : T → T → Bool) (l : OrderedValue T K)
    (r : Sum T (OrderedValue T K2)) : Bool :=
  bneT l.value (unwrapRight r)

/-- A well-founded induction principle for `Tm` giving the inductive
hypothesis for every member of an application's child list. -/
theorem tmInd (motive : Tm → Prop)
    (hconst : ∀ n, motive (Tm.const n))
    (hvar : ∀ v, motive (Tm.var v))
    (happ : ∀ nm ar cs, (∀ c ∈ cs, motive c) → motive (Tm.app nm ar cs)) :
    ∀ t, motive t
  | Tm.const n => hconst n
  | Tm.var v => hvar v
  | Tm.app nm ar cs =>
      happ nm ar cs (fun c hc =>
        have : sizeOf c < sizeOf (Tm.app nm ar cs) := by
          have h1 : sizeOf c < sizeOf cs := List.sizeOf_lt_of_mem hc
          simp only [Tm.app.sizeOf_spec]
          omega
        tmInd motive hconst hvar happ c)
termination_by t => sizeOf t

theorem alistLookup_append {κ α : Type} [DecidableEq κ] (k : κ)
    (l1 l2 : List (κ × α)) :
    alistLookup k (l1 ++ l2) =
      ((alistLookup k l1).elim (alistLookup k l2) some) := by
  induction l1 with
  | nil => simp [alistLookup]
  | cons kv rest ih =>
      obtain ⟨k1, v1⟩ := kv
      by_cases hk : k = k1
      · simp [alistLookup, hk]
      · simpa [alistLookup, hk] using ih

theorem alistLookup_map_snd {κ α β : Type} [DecidableEq κ] (k : κ)
    (f : α → β) (l : List (κ × α)) :
    alistLookup k (l.map (fun p => (p.1, f p.2))) = (alistLookup k l).map f := by
  induction l with
  | nil => simp [alistLookup]
  | cons kv rest ih =>
      obtain ⟨k1, v1⟩ := kv
      by_cases hk : k = k1
      · simp [alistLookup, hk]
      · simpa [alistLookup, hk] using ih

theorem alistLookup_filtered_absent {κ α : Type} [DecidableEq κ] (k : κ)
    (d1 d2 : List (κ × α)) (h : alistLookup k d2 ≠ none) :
    alistLookup k (d1.filter (fun kv => (alistLookup kv.1 d2).isNone)) = none := by
  induction d1 with
  | nil => simp [alistLookup]
  | cons kv rest ih =>
      obtain ⟨k1, v1⟩ := kv
      by_cases hkeep : (alistLookup k1 d2).isNone
      · have hk : k ≠ k1 := by
          intro he
          rw [he] at h
          exact h (Option.isNone_iff_eq_none.mp hkeep)
        simp [List.filter, hkeep, alistLookup, hk, ih]
      · simp [List.filter, hkeep, ih]

theorem alistLookup_filtered_present {κ α : Type} [DecidableEq κ] (k : κ)
    (d1 d2 : List (κ × α)) (h : alistLookup k d2 = none) :
    alistLookup k (d1.filter (fun kv => (alistLookup kv.1 d2).isNone)) =
      alistLookup k d1 := by
  induction d1 with
  | nil => rfl
  | cons kv rest ih =>
      obtain ⟨k1, v1⟩ := kv
      by_cases hk : k = k1
      · have hkeep : (alistLookup k1 d2).isNone := by
          rw [← hk, h]; rfl
        simp [List.filter, hkeep, alistLookup, hk]
      · by_cases hkeep : (alistLookup k1 d2).isNone
        · simp [List.filter, hkeep, alistLookup, hk, ih]
        · simp [List.filter, hkeep, alistLookup, hk, ih]

theorem alistLookup_pyMerge (k : VKey) (d1 d2 : List (VKey × Tm)) :
    alistLookup k (pyMerge d1 d2) =
      ((alistLookup k d2).elim (alistLookup k d1) some) := by
  unfold pyMerge
  rw [alistLookup_append]
  cases h2 : alistLookup k d2 with
  | none => rw [alistLookup_filtered_present k d1 d2 h2]; cases alistLookup k d1 <;> rfl
  | some v =>
      rw [alistLookup_filtered_absent k d1 d2 (by simp [h2])]
      rfl

theorem alistLookup_set {κ α : Type} [DecidableEq κ] (m k : κ) (v : α)
    (l : List (κ × α)) :
    alistLookup m (alistSet k v l) =
      if m = k then some v else alistLookup m l := by
  induction l with
  | nil => simp [alistSet, alistLookup]
  | cons kv rest ih =>
      obtain ⟨k1, v1⟩ := kv
      by_cases hk : k = k1
      · subst hk
        by_cases hm : m = k <;> simp [alistSet, alistLookup, hm]
      · by_cases hm : m = k1
        · subst hm
          have hmk : ¬ m = k := fun he => hk he.symm
          simp [alistSet, hk, alistLookup, hmk]
        · simp [alistSet, hk, alistLookup, hm, ih]

theorem listNth_mem {α : Type} : ∀ (cs : List α) (j : Nat) (c : α),
    listNth cs j = some c → c ∈ cs
  | [], _, _, h => by simp [listNth] at h
  | a :: cs, 0, c, h => by
      simp [listNth] at h
      simp [h]
  | _ :: cs, j + 1, c, h => by
      simp [listNth] at h
      exact List.mem_cons_of_mem _ (listNth_mem cs j c h)

theorem listNth_lt_length {α : Type} : ∀ (cs : List α) (j : Nat) (c : α),
    listNth cs j = some c → j < cs.length
  | [], _, _, h => by simp [listNth] at h
  | _ :: cs, 0, c, h => by simp
  | _ :: cs, j + 1, c, h => by
      simp [listNth] at h
      have := listNth_lt_length cs j c h
      simp
      omega

theorem listNth_lt_is_some {α : Type} : ∀ (cs : List α) (j : Nat),
    j < cs.length → ∃ c, listNth cs j = some c
  | [], j, h => by simp at h
  | a :: cs, 0, _ => ⟨a, rfl⟩
  | _ :: cs, j + 1, h => by
      simp at h
      exact listNth_lt_is_some cs j (by omega)

theorem pyTupleGet_ofNat (cs : List Tm) (j : Nat) (c : Tm)
    (h : listNth cs j = some c) : pyTupleGet cs (Int.ofNat j) = some c := by
  have hlt : j < cs.length := listNth_lt_length cs j c h
  unfold pyTupleGet
  simp only [Int.ofNat_eq_natCast]
  have h0 : ¬ ((j : Int) < 0) := by omega
  simp only [h0, if_false]
  have hc : (0 : Int) ≤ (j : Int) ∧ (j : Int) < (cs.length : Int) := by
    constructor
    · omega
    · omega
  rw [if_pos hc]
  simpa using h

theorem pyTupleGet_nonneg (cs : List Tm) (i : Int) (c : Tm)
    (h0 : 0 ≤ i) (h : pyTupleGet cs i = some c) :
    listNth cs i.toNat = some c := by
  unfold pyTupleGet at h
  have hn : ¬ (i < 0) := by omega
  simp only [hn, if_false] at h
  by_cases hc : (0 : Int) ≤ i ∧ i < (cs.length : Int)
  · rw [if_pos hc] at h
    exact h
  · rw [if_neg hc] at h
    exact absurd h (by simp)

/-- Success test for an embedded Python call (no exception raised). -/
def isOkE {ε α : Type} : Except ε α → Bool
  | Except.ok _ => true
  | Except.error _ => false

theorem getItem_eq_guarded (t : Tm) (pos : List Int) :
    getItem t pos = guardedGet pos t pos := by
  cases t <;> rfl

theorem guardedGet_nil (orig : List Int) (t : Tm) :
    guardedGet orig t [] = Except.ok t := by
  cases t <;> rfl

theorem loop_cons_none (orig : List Int) (nm : String) (ar : Nat) (cs : List Tm)
    (i : Int) (rest : List Int) (h : pyTupleGet cs i = none) :
    termGetItemLoop orig nm ar cs (i :: rest) =
      Except.error (PyError.keyError orig) := by
  simp [termGetItemLoop, h]

theorem loop_cons_some (orig : List Int) (nm : String) (ar : Nat) (cs : List Tm)
    (i : Int) (rest : List Int) (child : Tm) (h : pyTupleGet cs i = some child) :
    termGetItemLoop orig nm ar cs (i :: rest) = guardedGet orig child rest := by
  cases child <;> simp [termGetItemLoop, h, guardedGet]

theorem subtermsChildren_mem : ∀ (cs : List Tm) (k : Nat) (p : List Nat) (s : Tm),
    (p, s) ∈ subtermsChildren k cs ↔
      ∃ j c q, listNth cs j = some c ∧ p = (k + j) :: q ∧ (q, s) ∈ subtermsTm c := by
  intro cs
  induction cs with
  | nil =>
      intro k p s
      constructor
      · intro h; simp [subtermsChildren] at h
      · rintro ⟨j, c, q, hnth, _, _⟩; simp [listNth] at hnth
  | cons c0 rest ih =>
      intro k p s
      simp only [subtermsChildren, List.mem_append, List.mem_map]
      constructor
      · rintro (⟨⟨q0, s0⟩, hmem, heq⟩ | hrest)
        · injection heq with hp hs
          subst hp
          subst hs
          exact ⟨0, c0, q0, rfl, by simp, hmem⟩
        · obtain ⟨j, c, q, hnth, hp, hq⟩ := (ih (k + 1) p s).mp hrest
          refine ⟨j + 1, c, q, ?_, ?_, hq⟩
          · simpa [listNth] using hnth
          · rw [hp]
            congr 1
            omega
      · rintro ⟨j, c, q, hnth, hp, hq⟩
        cases j with
        | zero =>
            left
            have hc : c0 = c := by simpa [listNth] using hnth
            subst hc
            refine ⟨(q, s), hq, ?_⟩
            rw [hp]
            simp
        | succ j2 =>
            right
            apply (ih (k + 1) p s).mpr
            refine ⟨j2, c, q, by simpa [listNth] using hnth, ?_, hq⟩
            rw [hp]
            congr 1
            omega

theorem positionsTm_mem (t : Tm) (p : List Nat) :
    p ∈ positionsTm t ↔ ∃ s, (p, s) ∈ subtermsTm t := by
  simp only [positionsTm, List.mem_map]
  constructor
  · rintro ⟨⟨q, s0⟩, hmem, heq⟩
    refine ⟨s0, ?_⟩
    rw [← heq]
    exact hmem
  · rintro ⟨s, hmem⟩
    exact ⟨(p, s), hmem, rfl⟩

theorem subterms_sound : ∀ (t : Tm) (p : List Nat) (s : Tm),
    (p, s) ∈ subtermsTm t →
      ∀ orig, guardedGet orig t (p.map Int.ofNat) = Except.ok s := by
  intro t
  induction t using tmInd with
  | hconst n =>
      intro p s h orig
      simp [subtermsTm] at h
      rw [h.1, h.2]
      rfl
  | hvar v =>
      intro p s h orig
      simp [subtermsTm] at h
      rw [h.1, h.2]
      rfl
  | happ nm ar cs ihc =>
      intro p s h orig
      rcases List.mem_cons.mp h with heq | hmem
      · injection heq with hp hs
        subst hp
        subst hs
        exact guardedGet_nil orig (Tm.app nm ar cs)
      · obtain ⟨j, c, q, hnth, hp, hq⟩ := (subtermsChildren_mem cs 0 p s).mp hmem
        rw [hp]
        simp only [Nat.zero_add, List.map_cons]
        have hstep : guardedGet orig (Tm.app nm ar cs)
            (Int.ofNat j :: q.map Int.ofNat) =
            termGetItemLoop orig nm ar cs (Int.ofNat j :: q.map Int.ofNat) := rfl
        rw [hstep, loop_cons_some orig nm ar cs (Int.ofNat j) (q.map Int.ofNat) c
          (pyTupleGet_ofNat cs j c hnth)]
        exact ihc c (listNth_mem cs j c hnth) q s hq orig

theorem getItem_complete : ∀ (t : Tm) (p : List Nat) (orig : List Int),
    isOkE (guardedGet orig t (p.map Int.ofNat)) = true → p ∈ positionsTm t := by
  intro t
  induction t using tmInd with
  | hconst n =>
      intro p orig h
      cases p with
      | nil => simp [positionsTm, subtermsTm]
      | cons j q => simp [guardedGet, terminalGetItem, isOkE] at h
  | hvar v =>
      intro p orig h
      cases p with
      | nil => simp [positionsTm, subtermsTm]
      | cons j q => simp [guardedGet, terminalGetItem, isOkE] at h
  | happ nm ar cs ihc =>
      intro p orig h
      cases p with
      | nil => simp [positionsTm, subtermsTm]
      | cons j q =>
          simp only [List.map_cons] at h
          have hg : guardedGet orig (Tm.app nm ar cs)
              (Int.ofNat j :: q.map Int.ofNat) =
              termGetItemLoop orig nm ar cs (Int.ofNat j :: q.map Int.ofNat) := rfl
          rw [hg] at h
          cases hpt : pyTupleGet cs (Int.ofNat j) with
          | none =>
              rw [loop_cons_none orig nm ar cs _ _ hpt] at h
              simp [isOkE] at h
          | some child =>
              rw [loop_cons_some orig nm ar cs _ _ child hpt] at h
              have hnth : listNth cs j = some child := by
                have h0 : (0 : Int) ≤ Int.ofNat j := by
                  simp only [Int.ofNat_eq_natCast]
                  omega
                have := pyTupleGet_nonneg cs (Int.ofNat j) child h0 hpt
                simpa using this
              have hq : q ∈ positionsTm child := ihc child (listNth_mem cs j child hnth) q orig h
              obtain ⟨s, hs⟩ := (positionsTm_mem child q).mp hq
              apply (positionsTm_mem (Tm.app nm ar cs) (j :: q)).mpr
              refine ⟨s, ?_⟩
              apply List.mem_cons_of_mem
              exact (subtermsChildren_mem cs 0 (j :: q) s).mpr
                ⟨j, child, q, hnth, by simp, hs⟩

theorem subtermsChildren_head_ge (cs : List Tm) (k : Nat) (p : List Nat) (s : Tm)
    (h : (p, s) ∈ subtermsChildren k cs) : ∃ j q, p = j :: q ∧ k ≤ j := by
  obtain ⟨j, c, q, _, hp, _⟩ := (subtermsChildren_mem cs k p s).mp h
  exact ⟨k + j, q, hp, by omega⟩

theorem childPositions_nodup : ∀ (cs : List Tm) (k : Nat),
    (∀ c ∈ cs, (positionsTm c).Nodup) →
    (List.map Prod.fst (subtermsChildren k cs)).Nodup := by
  intro cs
  induction cs with
  | nil => intro k _; simp [subtermsChildren]
  | cons c0 rest ih =>
      intro k hall
      simp only [subtermsChildren, List.map_append, List.map_map]
      apply List.Nodup.append
      · have hcomp : (Prod.fst ∘ fun pt : List Nat × Tm => (k :: pt.1, pt.2)) =
            (fun p => k :: p) ∘ Prod.fst := rfl
        rw [hcomp, ← List.map_map]
        exact List.Nodup.map (List.cons_injective)
          (hall c0 (List.mem_cons_self c0 rest))
      · exact ih (k + 1) (fun c hc => hall c (List.mem_cons_of_mem c0 hc))
      · intro p hp1 hp2
        simp only [List.mem_map, Function.comp] at hp1 hp2
        obtain ⟨pt1, _, hq1⟩ := hp1
        obtain ⟨pt2, hm2, hq2⟩ := hp2
        obtain ⟨j, q, hpj, hge⟩ := subtermsChildren_head_ge rest (k + 1) pt2.1 pt2.2
          (by rw [Prod.mk.eta]; exact hm2)
        rw [hq2] at hpj
        rw [← hq1] at hpj
        injection hpj with hjk
        omega

theorem positions_nodup : ∀ t : Tm, (positionsTm t).Nodup := by
  intro t
  induction t using tmInd with
  | hconst n => simp [positionsTm, subtermsTm]
  | hvar v => simp [positionsTm, subtermsTm]
  | happ nm ar cs ihc =>
      show (List.map Prod.fst (([], Tm.app nm ar cs) :: subtermsChildren 0 cs)).Nodup
      simp only [List.map_cons]
      rw [List.nodup_cons]
      constructor
      · intro hmem
        simp only [List.mem_map] at hmem
        obtain ⟨pt, hm, hq⟩ := hmem
        obtain ⟨j, q, hpj, _⟩ := subtermsChildren_head_ge cs 0 pt.1 pt.2
          (by rw [Prod.mk.eta]; exact hm)
        rw [hq] at hpj
        exact List.noConfusion hpj
      · exact childPositions_nodup cs 0 ihc

theorem subtermsChildren_length : ∀ (cs : List Tm) (k : Nat),
    (∀ c ∈ cs, (subtermsTm c).length = tmLen c) →
    (subtermsChildren k cs).length = tmLenChildren cs := by
  intro cs
  induction cs with
  | nil => intro k _; rfl
  | cons c0 rest ih =>
      intro k hall
      simp only [subtermsChildren, List.length_append, List.length_map, tmLenChildren]
      rw [hall c0 (List.mem_cons_self c0 rest),
        ih (k + 1) (fun c hc => hall c (List.mem_cons_of_mem c0 hc))]

theorem subterms_length : ∀ t : Tm, (subtermsTm t).length = tmLen t := by
  intro t
  induction t using tmInd with
  | hconst n => rfl
  | hvar v => rfl
  | happ nm ar cs ihc =>
      show (([], Tm.app nm ar cs) :: subtermsChildren 0 cs).length = tmLen (Tm.app nm ar cs)
      simp only [List.length_cons, tmLen]
      rw [subtermsChildren_length cs 0 ihc]
      omega

theorem tmLenChildren_sum : ∀ cs : List Tm, tmLenChildren cs = (cs.map tmLen).sum := by
  intro cs
  induction cs with
  | nil => rfl
  | cons c0 rest ih => simp [tmLenChildren, ih]

theorem substChildren_length (m : List (VKey × Tm)) :
    ∀ cs : List Tm, (substChildren m cs).length = cs.length
  | [] => rfl
  | c0 :: rest => by simp [substChildren, substChildren_length m rest]

theorem substChildren_nth (m : List (VKey × Tm)) :
    ∀ (cs : List Tm) (j : Nat) (c : Tm), listNth cs j = some c →
      listNth (substChildren m cs) j = some (substTm m c)
  | [], _, _, h => by simp [listNth] at h
  | c0 :: rest, 0, c, h => by
      have hc : c0 = c := by simpa [listNth] using h
      subst hc
      rfl
  | c0 :: rest, j + 1, c, h => by
      simp only [listNth] at h
      simpa [substChildren, listNth] using substChildren_nth m rest j c h

theorem getState_fst (p : Pool) (name : String) :
    (getState p name).1 = poolNextIndex p name := by
  unfold getState poolNextIndex
  cases alistLookup name p <;> rfl

theorem getState_snd_next (p : Pool) (name m : String) :
    poolNextIndex (getState p name).2 m = poolNextIndex p m := by
  unfold getState poolNextIndex
  cases h : alistLookup name p with
  | some n => rfl
  | none =>
      simp only
      rw [alistLookup_set]
      by_cases hm : m = name
      · subst hm
        rw [if_pos rfl, h]
        rfl
      · rw [if_neg hm]

theorem poolGet_some_next (p : Pool) (name : String) (i : Int) :
    poolNextIndex ((poolGet p name (some i)).2) name =
      updateIndex (poolNextIndex p name) i := by
  unfold poolGet poolNextIndex
  simp only
  rw [alistLookup_set, if_pos rfl, getState_fst]
  rfl

theorem poolGet_frame (p : Pool) (name m : String) (o : Option Int) (hm : m ≠ name) :
    poolNextIndex ((poolGet p name o).2) m = poolNextIndex p m := by
  cases o with
  | none =>
      show poolNextIndex (getState p name).2 m = poolNextIndex p m
      exact getState_snd_next p name m
  | some i =>
      show poolNextIndex
        (alistSet name (updateIndex (getState p name).1 i) (getState p name).2) m =
        poolNextIndex p m
      unfold poolNextIndex
      rw [alistLookup_set, if_neg hm]
      exact getState_snd_next p name m

theorem poolGetFresh_next (p : Pool) (name : String) :
    poolNextIndex ((poolGetFresh p name).2) name = poolNextIndex p name + 1 := by
  unfold poolGetFresh
  simp only
  rw [poolGet_some_next, getState_fst, getState_snd_next]
  simp [updateIndex]

theorem poolGetFresh_frame (p : Pool) (name m : String) (hm : m ≠ name) :
    poolNextIndex ((poolGetFresh p name).2) m = poolNextIndex p m := by
  unfold poolGetFresh
  simp only
  rw [poolGet_frame _ _ _ _ hm]
  exact getState_snd_next p name m

theorem poolGetFresh_fst (p : Pool) (name : String) :
    (poolGetFresh p name).1 = VKey.indexed name (poolNextIndex p name) := by
  unfold poolGetFresh poolGet
  simp only
  rw [getState_fst]

theorem updateIndex_ge (next i : Int) : next ≤ updateIndex next i := by
  unfold updateIndex
  split <;> omega

theorem updateIndex_gt (next i : Int) : i + 1 ≤ updateIndex next i := by
  unfold updateIndex
  split <;> omega

theorem poolTrace_fresh_lb (name : String) :
    ∀ (ops : List PoolOp) (p : Pool) (e : Bool × Int),
      e ∈ poolRunTrace p name ops → e.1 = true → poolNextIndex p name ≤ e.2
  | [], p, e, h, _ => by simp [poolRunTrace] at h
  | PoolOp.freshOp :: ops, p, e, h, ht => by
      rcases List.mem_cons.mp h with he | hmem
      · rw [he]
        simp [getState_fst]
      · have hrec := poolTrace_fresh_lb name ops (poolGetFresh p name).2 e hmem ht
        rw [poolGetFresh_next] at hrec
        omega
  | PoolOp.reserveOp i :: ops, p, e, h, ht => by
      rcases List.mem_cons.mp h with he | hmem
      · rw [he] at ht
        exact absurd ht (by simp)
      · have hrec := poolTrace_fresh_lb name ops (poolGet p name (some i)).2 e hmem ht
        rw [poolGet_some_next] at hrec
        have hge := updateIndex_ge (poolNextIndex p name) i
        omega

theorem poolTrace_pairwise (name : String) :
    ∀ (ops : List PoolOp) (p : Pool),
      List.Pairwise (fun a b : Bool × Int => b.1 = true → a.2 < b.2)
        (poolRunTrace p name ops)
  | [], _ => List.Pairwise.nil
  | PoolOp.freshOp :: ops, p => by
      simp only [poolRunTrace]
      refine List.Pairwise.cons ?_ (poolTrace_pairwise name ops _)
      intro b hb htb
      have hlb := poolTrace_fresh_lb name ops _ b hb htb
      rw [poolGetFresh_next] at hlb
      simp only [getState_fst]
      omega
  | PoolOp.reserveOp i :: ops, p => by
      simp only [poolRunTrace]
      refine List.Pairwise.cons ?_ (poolTrace_pairwise name ops _)
      intro b hb htb
      have hlb := poolTrace_fresh_lb name ops _ b hb htb
      rw [poolGet_some_next] at hlb
      have hgt := updateIndex_gt (poolNextIndex p name) i
      omega

instance {ε α : Type} [DecidableEq ε] [DecidableEq α] : DecidableEq (Except ε α) :=
  fun a b =>
    match a, b with
    | Except.ok x, Except.ok y =>
        if h : x = y then isTrue (by rw [h])
        else isFalse (fun hc => h (Except.ok.inj hc))
    | Except.error e1, Except.error e2 =>
        if h : e1 = e2 then isTrue (by rw [h])
        else isFalse (fun hc => h (Except.error.inj hc))
    | Except.ok _, Except.error _ => isFalse (fun hc => Except.noConfusion hc)
    | Except.error _, Except.ok _ => isFalse (fun hc => Except.noConfusion hc)

/-- The plain variable `x`. -/
def xKey : VKey := VKey.plain "x"

/-- The plain variable `y`. -/
def yKey : VKey := VKey.plain "y"

/-- The plain variable `z`. -/
def zKey : VKey := VKey.plain "z"

/-- The docstring example term `f(g(c), ?x)` of `Term.__getitem__`. -/
def tDoc : Tm :=
  Tm.app "f" 2 [Tm.app "g" 1 [Tm.const "c"], Tm.var xKey]

/-- The inner substitution of the composition example:
`{x: f(x, y), y: g(z)}`. -/
def innerEx : Substitution :=
  Substitution.mk
    [(xKey, Tm.app "f" 2 [Tm.var xKey, Tm.var yKey]),
     (yKey, Tm.app "g" 1 [Tm.var zKey])]

/-- The outer substitution of the composition example: `{x: a, y: b, z: c}`. -/
def outerEx : Substitution :=
  Substitution.mk
    [(xKey, Tm.const "a"), (yKey, Tm.const "b"), (zKey, Tm.const "c")]

/-- The expected composition `{x: f(a, b), y: g(c), z: c}`. -/
def composedEx : Substitution :=
  Substitution.mk
    [(xKey, Tm.app "f" 2 [Tm.const "a", Tm.const "b"]),
     (yKey, Tm.app "g" 1 [Tm.const "c"]),
     (zKey, Tm.const "c")]

/-- Claim C1: substitution composition follows the fixed right-to-left order:
`outer(inner)` maps every variable of `inner`'s domain to `outer` applied to
its image, carries every mapping of `outer` for a variable outside `inner`'s
domain through unchanged, and on the spec's concrete example equals
`Substitution({x: f(a,b), y: g(c), z: c})` under Python dict equality. -/
theorem c1_compose_order (outer inner : Substitution) (v : VKey) (t : Tm)
    (hin : alistLookup v inner.mapping = some t)
    (w : VKey) (hout : alistLookup w inner.mapping = none) :
    alistLookup v ((outer.callS inner).mapping) = some (substTm outer.mapping t) ∧
    alistLookup w ((outer.callS inner).mapping) = alistLookup w outer.mapping ∧
    pyDictEq ((outerEx.callS innerEx).mapping) composedEx.mapping := by
  refine ⟨?_, ?_, by decide⟩
  · show alistLookup v
      (pyMerge outer.mapping
        (inner.mapping.map (fun p => (p.1, substTm outer.mapping p.2)))) = _
    rw [alistLookup_pyMerge, alistLookup_map_snd, hin]
    rfl
  · show alistLookup w
      (pyMerge outer.mapping
        (inner.mapping.map (fun p => (p.1, substTm outer.mapping p.2)))) = _
    rw [alistLookup_pyMerge, alistLookup_map_snd, hout]
    rfl

/-- Witness for C1 at the spec's own example: `x` is in the inner domain and
`z` is not. -/
theorem c1_compose_order_witness :
    alistLookup xKey innerEx.mapping =
      some (Tm.app "f" 2 [Tm.var xKey, Tm.var yKey]) ∧
    alistLookup zKey innerEx.mapping = none ∧
    (alistLookup xKey ((outerEx.callS innerEx).mapping) =
       some (substTm outerEx.mapping (Tm.app "f" 2 [Tm.var xKey, Tm.var yKey])) ∧
     alistLookup zKey ((outerEx.callS innerEx).mapping) =
       alistLookup zKey outerEx.mapping ∧
     pyDictEq ((outerEx.callS innerEx).mapping) composedEx.mapping) :=
  ⟨by decide, by decide,
   c1_compose_order outerEx innerEx xKey _ (by decide) zKey (by decide)⟩

/-- Claim C2: `t.at(())` returns `t` itself, and every position enumerated by
`subterms()` can be looked up successfully, yielding exactly the paired
sub-term. -/
theorem c2_at_sound (t : Tm) (p : List Nat) (hp : p ∈ positionsTm t) :
    getItem t [] = Except.ok t ∧
    ∃ s, (p, s) ∈ subtermsTm t ∧ getItem t (p.map Int.ofNat) = Except.ok s := by
  constructor
  · rw [getItem_eq_guarded]
    exact guardedGet_nil [] t
  · obtain ⟨s, hs⟩ := (positionsTm_mem t p).mp hp
    refine ⟨s, hs, ?_⟩
    rw [getItem_eq_guarded]
    exact subterms_sound t p s hs _

/-- Witness for C2 at the docstring term and position `(0, 0)`. -/
theorem c2_at_sound_witness :
    ([0, 0] ∈ positionsTm tDoc) ∧
    (getItem tDoc [] = Except.ok tDoc ∧
     ∃ s, ([0, 0], s) ∈ subtermsTm tDoc ∧
       getItem tDoc ([0, 0].map Int.ofNat) = Except.ok s) :=
  ⟨by decide, c2_at_sound tDoc [0, 0] (by decide)⟩

/-- Claim C3 (refuting evidence): the docstring of `Term.__getitem__` promises
`t[(-1,)]` raises `KeyError` on `t = f(g(c), ?x)`, and `(-1,)` is not among
the enumerated positions, yet the lookup succeeds and returns the last child
because Python tuple indexing accepts negative indices. -/
theorem c3_negative_index_eval :
    getItem tDoc [-1] = Except.ok (Tm.var xKey) ∧
    ¬ ([-1] ∈ (positionsTm tDoc).map (List.map Int.ofNat)) := by
  decide

/-- Claim C4 (refuting evidence): descending below the terminal `c` of
`t = f(g(c), ?x)` with `t[(0, 0, 0)]` raises the `KeyError` produced by
`TerminalSymbol.__getitem__`, whose message carries only the remaining
suffix `(0,)` of the original position — the `except IndexError` handler of
`Term.__getitem__` does not catch a `KeyError`, so the full original position
`(0, 0, 0)` is not restored. -/
theorem c4_suffix_error_eval :
    getItem tDoc [0, 0, 0] = Except.error (PyError.keyError [0]) ∧
    ([0] : List Int) ≠ [0, 0, 0] := by
  decide

/-- Claim C5 (refuting evidence): `__contains__` suppresses only `IndexError`,
but `at` fails with `KeyError`, so the membership probe propagates the
exception for an invalid position instead of returning `False`; the success
path does return `True`. -/
theorem c5_contains_eval :
    containsImpl tDoc [5] = Except.error (PyError.keyError [5]) ∧
    containsImpl tDoc [0] = Except.ok true := by
  decide

/-- Claim C6: `subterms()` enumerates every valid position exactly once (the
position list has no duplicates, and membership in it coincides with `at`
succeeding), the number of pairs equals `size()`, and `size()` is 1 on a
terminal symbol and one plus the sum of the children's sizes on an
application. -/
theorem c6_subterms_exact (t : Tm) (p : List Nat) (nm n : String) (ar : Nat)
    (cs : List Tm) (v : VKey) :
    (positionsTm t).Nodup ∧
    (p ∈ positionsTm t ↔ isOkE (getItem t (p.map Int.ofNat)) = true) ∧
    (subtermsTm t).length = tmLen t ∧
    tmLen (Tm.const n) = 1 ∧ tmLen (Tm.var v) = 1 ∧
    tmLen (Tm.app nm ar cs) = 1 + (cs.map tmLen).sum := by
  refine ⟨positions_nodup t, ?_, subterms_length t, rfl, rfl, ?_⟩
  · constructor
    · intro hp
      obtain ⟨s, hs⟩ := (positionsTm_mem t p).mp hp
      rw [getItem_eq_guarded, subterms_sound t p s hs _]
      rfl
    · intro h
      rw [getItem_eq_guarded] at h
      exact getItem_complete t p _ h
  · show 1 + tmLenChildren cs = 1 + (cs.map tmLen).sum
    rw [tmLenChildren_sum]

/-- Claim C7: for any single pool and name, the indices issued by `get_fresh`
(interleaved with explicit `get(name, index)` reservations) are strictly
greater than every previously issued or reserved index (hence strictly
increasing and never repeating); a fresh variable carries the current counter
as its index; operations on one name leave every other name's counter
unchanged; a fresh pool issues `1, 2, 3` in order, and after `get("x", 10)`
the next `get_fresh("x")` issues `11`. -/
theorem c7_pool_freshness (name m : String) (ops : List PoolOp) (p : Pool)
    (o : Option Int) (hm : m ≠ name) :
    List.Pairwise (fun a b : Bool × Int => b.1 = true → a.2 < b.2)
      (poolRunTrace p name ops) ∧
    (poolGetFresh p name).1 = VKey.indexed name (poolNextIndex p name) ∧
    poolNextIndex ((poolGet p name o).2) m = poolNextIndex p m ∧
    poolNextIndex ((poolGetFresh p name).2) m = poolNextIndex p m ∧
    poolRunTrace ([] : Pool) "x" [PoolOp.freshOp, PoolOp.freshOp, PoolOp.freshOp] =
      [(true, 1), (true, 2), (true, 3)] ∧
    poolRunTrace ([] : Pool) "x" [PoolOp.reserveOp 10, PoolOp.freshOp] =
      [(false, 10), (true, 11)] :=
  ⟨poolTrace_pairwise name ops p, poolGetFresh_fst p name,
   poolGet_frame p name m o hm, poolGetFresh_frame p name m hm,
   by decide, by decide⟩

/-- Witness for C7 with the distinct names `x` and `y` on the empty pool. -/
theorem c7_pool_freshness_witness :
    ("y" ≠ "x") ∧
    (List.Pairwise (fun a b : Bool × Int => b.1 = true → a.2 < b.2)
      (poolRunTrace ([] : Pool) "x" [PoolOp.freshOp]) ∧
    (poolGetFresh ([] : Pool) "x").1 =
      VKey.indexed "x" (poolNextIndex ([] : Pool) "x") ∧
    poolNextIndex ((poolGet ([] : Pool) "x" none).2) "y" =
      poolNextIndex ([] : Pool) "y" ∧
    poolNextIndex ((poolGetFresh ([] : Pool) "x").2) "y" =
      poolNextIndex ([] : Pool) "y" ∧
    poolRunTrace ([] : Pool) "x" [PoolOp.freshOp, PoolOp.freshOp, PoolOp.freshOp] =
      [(true, 1), (true, 2), (true, 3)] ∧
    poolRunTrace ([] : Pool) "x" [PoolOp.reserveOp 10, PoolOp.freshOp] =
      [(false, 10), (true, 11)]) :=
  ⟨by decide, c7_pool_freshness "x" "y" [PoolOp.freshOp] [] none (by decide)⟩

/-- Claim C8: `Term(f, cs)` and `f(*cs)` go through the single
`Term.__post_init__` validation: with the wrong number of children both fail
with the same arity-mismatch `ValueError`, and with the right number both
succeed with root `f` and children `cs` unchanged. -/
theorem c8_arity_single_path (f : Funct) (cs : List Tm) (hpos : 1 ≤ f.arity) :
    functCall f cs = mkTerm f cs ∧
    mkTerm f cs =
      (if f.arity = cs.length then Except.ok (Tm.app f.name f.arity cs)
       else Except.error (PyError.valueErrorArity f.arity cs.length)) :=
  ⟨rfl, rfl⟩

/-- Witness for C8 at `f` of arity 2 applied to one child. -/
theorem c8_arity_single_path_witness :
    1 ≤ (Funct.mk "f" 2).arity ∧
    (functCall (Funct.mk "f" 2) [Tm.const "a"] =
       mkTerm (Funct.mk "f" 2) [Tm.const "a"] ∧
     mkTerm (Funct.mk "f" 2) [Tm.const "a"] =
       (if (Funct.mk "f" 2).arity = [Tm.const "a"].length then
          Except.ok (Tm.app (Funct.mk "f" 2).name (Funct.mk "f" 2).arity
            [Tm.const "a"])
        else Except.error (PyError.valueErrorArity (Funct.mk "f" 2).arity
          [Tm.const "a"].length))) :=
  ⟨by decide, c8_arity_single_path (Funct.mk "f" 2) [Tm.const "a"] (by decide)⟩

/-- Claim C9 (refuting evidence): the `@dataclass` decorator the `ordering`
wrapper applies generates an `__eq__` that shadows
`AbstractOrderedValue.__eq__`, so `==` on two wrapped values with equal
payloads but different keyword configurations is `False` where the claim
requires raw-value comparison (`True`); the inherited `__ne__` does compare
raw values and also returns `False`, making `==` and `!=` simultaneously
false; the comparison operators themselves do behave as claimed (left
operand's comparator and configuration applied to both sides). -/
theorem c9_eq_shadowed_eval :
    ovEqDataclass (fun a b : Int => decide (a = b)) (fun a b : Int => decide (a = b))
      (OrderedValue.mk (5 : Int) (1 : Int)) (OrderedValue.mk (5 : Int) (2 : Int)) =
      false ∧
    ovEqAbstract (fun a b : Int => decide (a = b))
      (OrderedValue.mk (5 : Int) (1 : Int))
      (Sum.inr (OrderedValue.mk (5 : Int) (2 : Int))) = true ∧
    ovNe (fun a b : Int => decide (¬ a = b))
      (OrderedValue.mk (5 : Int) (1 : Int))
      (Sum.inr (OrderedValue.mk (5 : Int) (2 : Int))) = false ∧
    ovCompare (fun (a : Int) (k : Int) => a + k) (fun a b : Int => decide (a < b))
      (OrderedValue.mk (3 : Int) (10 : Int))
      (Sum.inr (OrderedValue.mk (4 : Int) (0 : Int))) =
      decide ((3 + 10 : Int) < (4 + 10 : Int)) := by
  decide

/-- Claim C10: substitution application preserves structure except at
variable leaves: on an application it keeps the root symbol (name and arity)
and maps each child independently (same child count, `i`-th child becomes the
substituted `i`-th child); a constant is returned unchanged, and a variable
outside the mapping is returned unchanged. -/
theorem c10_subst_frame (s : Substitution) (nm n : String) (ar : Nat)
    (cs : List Tm) (j : Nat) (c : Tm) (hj : listNth cs j = some c) (v : VKey)
    (hv : alistLookup v s.mapping = none) :
    Substitution.callTm s (Tm.app nm ar cs) =
      Tm.app nm ar (substChildren s.mapping cs) ∧
    (substChildren s.mapping cs).length = cs.length ∧
    listNth (substChildren s.mapping cs) j = some (Substitution.callTm s c) ∧
    Substitution.callTm s (Tm.const n) = Tm.const n ∧
    Substitution.callTm s (Tm.var v) = Tm.var v := by
  refine ⟨rfl, substChildren_length s.mapping cs,
    substChildren_nth s.mapping cs j c hj, rfl, ?_⟩
  show substTm s.mapping (Tm.var v) = Tm.var v
  simp [substTm, hv]

/-- Witness for C10 at `{x: a}` applied to `f(?x, b)`, with `z` unmapped. -/
theorem c10_subst_frame_witness :
    listNth [Tm.var xKey, Tm.const "b"] 0 = some (Tm.var xKey) ∧
    alistLookup zKey (Substitution.mk [(xKey, Tm.const "a")]).mapping = none ∧
    (Substitution.callTm (Substitution.mk [(xKey, Tm.const "a")])
       (Tm.app "f" 2 [Tm.var xKey, Tm.const "b"]) =
       Tm.app "f" 2 (substChildren (Substitution.mk [(xKey, Tm.const "a")]).mapping
         [Tm.var xKey, Tm.const "b"]) ∧
     (substChildren (Substitution.mk [(xKey, Tm.const "a")]).mapping
       [Tm.var xKey, Tm.const "b"]).length = [Tm.var xKey, Tm.const "b"].length ∧
     listNth (substChildren (Substitution.mk [(xKey, Tm.const "a")]).mapping
       [Tm.var xKey, Tm.const "b"]) 0 =
       some (Substitution.callTm (Substitution.mk [(xKey, Tm.const "a")])
         (Tm.var xKey)) ∧
     Substitution.callTm (Substitution.mk [(xKey, Tm.const "a")]) (Tm.const "c") =
       Tm.const "c" ∧
     Substitution.callTm (Substitution.mk [(xKey, Tm.const "a")]) (Tm.var zKey) =
       Tm.var zKey) :=
  ⟨by decide, by decide,
   c10_subst_frame (Substitution.mk [(xKey, Tm.const "a")]) "f" "c" 2
     [Tm.var xKey, Tm.const "b"] 0 (Tm.var xKey) (by decide) zKey (by decide)⟩
